import Mathlib

/-!
Shallow embedding of the lakeside compaction subsystem — the transaction log
(src/compactor/src/transaction-log.ts), the compaction coordinator
(src/compactor/src/compaction-coordinator.ts) and the compaction orchestrator
(src/compactor/src/worker.ts) — together with proofs that settle the claims of
the natural-language specification against this code.
-/

/-- Operation kinds of a transaction entry (transaction-log.ts, `TransactionEntry.operation`). -/
inductive Operation
  | compact
  | schema_change
  | cleanup
deriving DecidableEq, Repr

/-- FileAction (transaction-log.ts lines 20-25): a log-embedded descriptor of one file. -/
structure FileAction where
  path : String
  size : Option Nat := none
  rowCount : Option Nat := none
  partition : Option String := none
deriving DecidableEq, Repr

/-- TransactionEntry (transaction-log.ts lines 11-18).  The `metadata` record holds opaque
JSON values; they are carried here as serialized strings since no code of the compactor
ever inspects them. -/
structure TransactionEntry where
  version : Nat
  timestamp : String
  operation : Operation
  add : Option (List FileAction) := none
  remove : Option (List FileAction) := none
  metadata : Option (List (String × String)) := none
deriving DecidableEq, Repr

/-- Version numbers present under the log prefix.  appendTransaction writes keys of the
form `_lakeside_log/<version padded to 8 digits>.json` and getNextVersion parses exactly
that shape back with `parseInt`, so the log listing is modelled by the list of version
numbers present. -/
abbrev LogKeys := List Nat

/-- getNextVersion (transaction-log.ts lines 64-80): 0 on an empty listing, otherwise the
highest parsed version number plus one. -/
def getNextVersion (keys : LogKeys) : Nat :=
  match keys with
  | [] => 0
  | _ => keys.foldl Nat.max 0 + 1

/-- Log contents after `n` successful sequential appendTransaction calls starting from an
empty log: each success path writes the key for the version that getNextVersion computed
(transaction-log.ts lines 89-116). -/
def logAfter : Nat → LogKeys
  | 0 => []
  | n + 1 => getNextVersion (logAfter n) :: logAfter n

/-- appendTransaction (transaction-log.ts lines 85-117) under contention.  `conflict i`
says whether attempt `i` loses the conditional put to a concurrent writer (that writer
then owns the computed version, so the key joins the listing and the call recurses).
The source retries by a plain recursive call with no attempt budget, so the recursion is
truncated by a fuel argument: `none` means the fuel ran out with the call still
retrying, i.e. the source would still be recursing at that depth. -/
def appendTransactionFuel (conflict : Nat → Bool) : Nat → LogKeys → Option (Nat × LogKeys)
  | 0, _ => none
  | fuel + 1, keys =>
    let v := getNextVersion keys
    if conflict 0 then appendTransactionFuel (fun i => conflict (i + 1)) fuel (v :: keys)
    else some (v, v :: keys)

theorem foldl_max_of_le (l : List Nat) (a : Nat) (h : ∀ x ∈ l, x ≤ a) :
    l.foldl Nat.max a = a := by
  induction l with
  | nil => rfl
  | cons x l ih =>
    have hx : x ≤ a := h x (by simp)
    have : Nat.max a x = a := Nat.max_eq_left hx
    simpa [List.foldl_cons, this] using ih (fun y hy => h y (by simp [hy]))

theorem logAfter_spec (n : Nat) :
    getNextVersion (logAfter n) = n ∧ (∀ v, v ∈ logAfter n ↔ v < n) := by
  induction n with
  | zero => exact ⟨rfl, by simp [logAfter]⟩
  | succ n ih =>
    have hcons : logAfter (n + 1) = n :: logAfter n := by
      simp [logAfter, ih.1]
    have hmem : ∀ v, v ∈ logAfter (n + 1) ↔ v < n + 1 := by
      intro v
      rw [hcons]
      simp only [List.mem_cons, ih.2 v]
      omega
    refine ⟨?_, hmem⟩
    rw [hcons]
    have hle : ∀ x ∈ logAfter n, x ≤ n := fun x hx => Nat.le_of_lt ((ih.2 x).1 hx)
    show getNextVersion (n :: logAfter n) = n + 1
    have : (n :: logAfter n).foldl Nat.max 0 = n := by
      simp only [List.foldl_cons, Nat.max_eq_right (Nat.zero_le n)]
      exact foldl_max_of_le _ _ hle
    simp [getNextVersion, this]

theorem logAfter_nodup (n : Nat) : (logAfter n).Nodup := by
  induction n with
  | zero => simp [logAfter]
  | succ n ih =>
    have hcons : logAfter (n + 1) = n :: logAfter n := by
      simp [logAfter, (logAfter_spec n).1]
    rw [hcons]
    exact List.nodup_cons.2 ⟨fun h => absurd (((logAfter_spec n).2 n).1 h) (by omega), ih⟩

/-- C1.  Starting from an empty log, after any number `N` of successful appendTransaction
calls the committed versions are exactly 0, 1, …, N−1: membership is equivalent to being
below N (so there is no gap — every version below an existing one exists — and the range
is dense), and the listing holds no duplicates. -/
theorem logAfter_versions_dense (N v : Nat) :
    (v ∈ logAfter N ↔ v < N) ∧ (logAfter N).Nodup :=
  ⟨(logAfter_spec N).2 v, logAfter_nodup N⟩

/-- C2 counterexample.  When every conditional put loses (persistent contention), the
source's appendTransaction is still retrying after 64 attempts: no attempt bound is ever
reached and no LogContention failure is surfaced — the recursion simply continues.  The
claimed behaviour (a bounded number of retries, then a surfaced LogContention failure)
is therefore false of the code. -/
theorem appendTransaction_unbounded_retry_cex :
    appendTransactionFuel (fun _ => true) 64 [] = none := by
  rfl

/-- C2 amended.  appendTransaction computes the version via getNextVersion and writes
with a conditional put on key non-existence; when the precondition fails it recomputes
the version and retries with no bound at all: at every recursion depth the call has
produced no result precisely when every attempt so far hit contention, so it terminates
exactly when some attempt's conditional put succeeds, and no LogContention failure
exists in the code. -/
theorem appendTransaction_retries_without_bound (conflict : Nat → Bool) (fuel : Nat)
    (keys : LogKeys) :
    appendTransactionFuel conflict fuel keys = none ↔ ∀ i < fuel, conflict i = true := by
  induction fuel generalizing conflict keys with
  | zero => simp [appendTransactionFuel]
  | succ fuel ih =>
    by_cases h : conflict 0
    · simp only [appendTransactionFuel, h, if_true]
      rw [ih]
      constructor
      · intro hall i hi
        match i, hi with
        | 0, _ => exact h
        | i + 1, hi => exact hall i (by omega)
      · intro hall i hi
        exact hall (i + 1) (by omega)
    · simp only [appendTransactionFuel, h, if_false]
      constructor
      · intro hsome
        exact absurd hsome (by simp)
      · intro hall
        exact absurd (hall 0 (by omega)) (by simpa using h)

/-- CompactionState (compaction-coordinator.ts lines 2-6): the coordinator's durable
record.  `startedAt` is an epoch-milliseconds number. -/
structure CompactionState where
  isCompacting : Bool
  currentBatch : Option (List String) := none
  startedAt : Option Int := none
deriving DecidableEq, Repr

/-- Stale-lock window of the coordinator (compaction-coordinator.ts line 31):
10 * 60 * 1000 milliseconds. -/
def STALE_MS : Int := 10 * 60 * 1000

/-- Constructor load logic (compaction-coordinator.ts lines 20-40): the stored state is
read into memory, and when a compaction has been marked running for more than STALE_MS
the in-memory copy is reset to idle.  The JavaScript guard `this.state.startedAt` is
truthy only for a number other than 0, which the `t ≠ 0` conjunct mirrors.  No
`storage.put` is issued anywhere on this path, so the durable state after load — the
second component — is the stored state, unchanged. -/
def constructorLoad (stored : Option CompactionState) (now : Int) :
    CompactionState × Option CompactionState :=
  match stored with
  | none => ({ isCompacting := false }, none)
  | some s =>
    match s.startedAt with
    | some t =>
      if s.isCompacting = true ∧ t ≠ 0 ∧ now - t > STALE_MS then
        ({ isCompacting := false }, some s)
      else (s, some s)
    | none => (s, some s)

/-- Stored coordinator state of the C3 counterexample: busy, with a startedAt far enough
in the past to be stale at load time 600002. -/
def staleStoredState : CompactionState :=
  { isCompacting := true, currentBatch := some [], startedAt := some 1 }

/-- C3 counterexample.  Loading a coordinator whose stored state is busy with a stale
startedAt (elapsed 600001 ms > STALE_MS) resets the in-memory state to idle, but the
durable storage still holds busy = true afterwards: the constructor never issues a
storage.put, so the claimed persistence of busy = false on stale-lock recovery is false
of the code. -/
theorem constructorLoad_no_persist_cex :
    (constructorLoad (some staleStoredState) 600002).1.isCompacting = false ∧
    (constructorLoad (some staleStoredState) 600002).2 = some staleStoredState ∧
    staleStoredState.isCompacting = true :=
  ⟨rfl, rfl, rfl⟩

/-- C3 amended.  On coordinator instance load the durable storage is left unchanged; if
the stored state is busy with a truthy (non-zero) startedAt and now − startedAt exceeds
STALE_MS, the in-memory state transitions to idle (this is the only automatic transition
out of the held state: in every other case the stored state is loaded as-is).  The
transition is in-memory only — nothing persists busy = false at load. -/
theorem constructorLoad_stale_recovery (s : CompactionState) (t now : Int) :
    (constructorLoad (some s) now).2 = some s ∧
    (s.isCompacting = true → s.startedAt = some t → t ≠ 0 → now - t > STALE_MS →
      (constructorLoad (some s) now).1 = { isCompacting := false }) ∧
    (¬ (s.isCompacting = true ∧ ∃ u, s.startedAt = some u ∧ u ≠ 0 ∧ now - u > STALE_MS) →
      (constructorLoad (some s) now).1 = s) := by
  refine ⟨?_, ?_, ?_⟩
  · cases hs : s.startedAt with
    | none => simp [constructorLoad, hs]
    | some u =>
      simp only [constructorLoad, hs]
      split <;> rfl
  · intro hbusy hstart ht hstale
    simp [constructorLoad, hstart, hbusy, ht, hstale]
  · intro hnot
    cases hs : s.startedAt with
    | none => simp [constructorLoad, hs]
    | some u =>
      simp only [constructorLoad, hs]
      rw [if_neg]
      intro ⟨h1, h2, h3⟩
      exact hnot ⟨h1, u, hs, h2, h3⟩

/-- Predicate of the regular expression character class `[^/]`, as a Bool. -/
def notSlash (ch : Char) : Bool := decide (ch ≠ '/')

/-- Match attempt of the pattern `data\/([^\/]+)\//` at one fixed start position, as the
JavaScript engine performs it: the literal `data/` must occur here, the capture is the
maximal run of non-slash characters after it, and the attempt succeeds only if that run
is nonempty and a slash follows it (a shorter run cannot succeed, because the character
after any shorter run is a non-slash while the pattern demands a slash there). -/
def matchDataAt (l : List Char) : Option (List Char) :=
  if ('d' :: 'a' :: 't' :: 'a' :: '/' :: []).isPrefixOf l then
    if (l.drop 5).takeWhile notSlash ≠ [] ∧
        ((l.drop 5).takeWhile notSlash).length < (l.drop 5).length then
      some ((l.drop 5).takeWhile notSlash)
    else none
  else none

/-- Left-to-right scan of `String.match` with the unanchored pattern
`/data\/([^\/]+)\//` (transaction-log.ts line 39): attempt a match at each start
position in turn and return the first capture found. -/
def scanPartition : List Char → Option (List Char)
  | [] => none
  | c :: rest =>
    match matchDataAt (c :: rest) with
    | some seg => some seg
    | none => scanPartition rest

/-- extractPartition (transaction-log.ts lines 38-41): first capture of the unanchored
pattern, or null when the pattern does not occur. -/
def extractPartition (filePath : String) : Option String :=
  (scanPartition filePath.data).map fun cs => String.mk cs

/-- Ordered upsert into an insertion-ordered map, as JavaScript's `Map.set` after
`Map.get` behaves inside groupFilesByPartition: a present key keeps its place and its
list grows at the end, an absent key joins at the end. -/
def upsertGroup (m : List (String × List String)) (k v : String) :
    List (String × List String) :=
  match m with
  | [] => [(k, [v])]
  | (k', vs) :: rest =>
    if k' = k then (k', vs ++ [v]) :: rest else (k', vs) :: upsertGroup rest k v

/-- groupFilesByPartition (transaction-log.ts lines 46-59): fold the keys in order,
grouping the ones whose partition extracts into an insertion-ordered map and dropping
the rest. -/
def groupFilesByPartition (fileKeys : List String) : List (String × List String) :=
  fileKeys.foldl
    (fun m key =>
      match extractPartition key with
      | some p => upsertGroup m p key
      | none => m) []

/-- Lookup in the insertion-ordered map (JavaScript `Map.get`, with [] for a missing
key, matching the `partitions.get(partition) || []` read in the source). -/
def lookupGroup (m : List (String × List String)) (p : String) : List String :=
  match m with
  | [] => []
  | (k, vs) :: rest => if k = p then vs else lookupGroup rest p

/-- Modelled from the spec: the anchored pattern `^data/([^/]+)/` of spec section 4.1 —
a match attempt at position 0 only, unlike the source's unanchored scan. -/
def matchesAnchoredData (s : String) : Bool :=
  match matchDataAt s.data with
  | some _ => true
  | none => false

theorem mem_takeWhile_pred (p : Char → Bool) :
    ∀ (l : List Char) (x : Char), x ∈ l.takeWhile p → p x = true := by
  intro l
  induction l with
  | nil => intro x hx; simp [List.takeWhile] at hx
  | cons c rest ih =>
    intro x hx
    rw [List.takeWhile] at hx
    cases hc : p c with
    | true =>
      rw [hc] at hx
      rcases List.mem_cons.1 hx with h | h
      · exact h ▸ hc
      · exact ih x h
    | false => rw [hc] at hx; simp at hx

theorem dropWhile_head_not (p : Char → Bool) :
    ∀ (l : List Char) (c : Char) (d : List Char), l.dropWhile p = c :: d → p c = false := by
  intro l
  induction l with
  | nil => intro c d h; simp [List.dropWhile] at h
  | cons x xs ih =>
    intro c d h
    rw [List.dropWhile] at h
    cases hx : p x with
    | true => rw [hx] at h; exact ih c d h
    | false => rw [hx] at h; cases h; exact hx

theorem matchDataAt_spec (l seg : List Char) (h : matchDataAt l = some seg) :
    seg ≠ [] ∧ (∀ c ∈ seg, c ≠ '/') ∧
    ∃ post, l = 'd' :: 'a' :: 't' :: 'a' :: '/' :: (seg ++ '/' :: post) := by
  unfold matchDataAt at h
  by_cases hpre : ('d' :: 'a' :: 't' :: 'a' :: '/' :: []).isPrefixOf l
  case neg => rw [if_neg hpre] at h; exact absurd h (by simp)
  rw [if_pos hpre] at h
  by_cases hcond : (l.drop 5).takeWhile notSlash ≠ [] ∧
      ((l.drop 5).takeWhile notSlash).length < (l.drop 5).length
  case neg => rw [if_neg hcond] at h; exact absurd h (by simp)
  rw [if_pos hcond] at h
  have hseg : (l.drop 5).takeWhile notSlash = seg := by injection h
  obtain ⟨hne, hlen⟩ := hcond
  rw [hseg] at hne hlen
  obtain ⟨t, ht⟩ := List.isPrefixOf_iff_prefix.1 hpre
  have htail : l.drop 5 = t := by rw [← ht]; rfl
  have hmem : ∀ c ∈ seg, c ≠ '/' := by
    intro c hc
    have := mem_takeWhile_pred notSlash (l.drop 5) c (by rw [hseg]; exact hc)
    simpa [notSlash] using this
  refine ⟨hne, hmem, ?_⟩
  have hsplit : seg ++ (l.drop 5).dropWhile notSlash = l.drop 5 := by
    rw [← hseg]; exact List.takeWhile_append_dropWhile notSlash (l.drop 5)
  cases hd : (l.drop 5).dropWhile notSlash with
  | nil =>
    exfalso
    rw [hd, List.append_nil] at hsplit
    rw [← hsplit] at hlen
    exact Nat.lt_irrefl _ hlen
  | cons c d =>
    have hc : notSlash c = false := dropWhile_head_not notSlash (l.drop 5) c d hd
    have hcslash : c = '/' := by
      by_contra hne2
      simp [notSlash, hne2] at hc
    have h5 : l = 'd' :: 'a' :: 't' :: 'a' :: '/' :: (l.drop 5) := by
      rw [htail, ← ht]; rfl
    have hdecomp : l.drop 5 = seg ++ '/' :: d := by
      rw [← hsplit, hd, hcslash]
    exact ⟨d, by rw [h5, hdecomp]⟩

theorem scanPartition_decomp (l : List Char) :
    ∀ seg, scanPartition l = some seg →
      seg ≠ [] ∧ (∀ c ∈ seg, c ≠ '/') ∧
      ∃ pre post, l = pre ++ ('d' :: 'a' :: 't' :: 'a' :: '/' :: (seg ++ '/' :: post)) := by
  induction l with
  | nil => intro seg h; simp [scanPartition] at h
  | cons c rest ih =>
    intro seg h
    rw [scanPartition] at h
    cases hm : matchDataAt (c :: rest) with
    | some s =>
      rw [hm] at h
      have hs : s = seg := by injection h
      obtain ⟨h1, h2, post, h3⟩ := matchDataAt_spec (c :: rest) seg (hs ▸ hm)
      exact ⟨h1, h2, [], post, h3⟩
    | none =>
      rw [hm] at h
      obtain ⟨h1, h2, pre, post, h3⟩ := ih seg h
      exact ⟨h1, h2, c :: pre, post, by rw [h3, List.cons_append]⟩

theorem lookupGroup_upsertGroup (m : List (String × List String)) (k v p : String) :
    lookupGroup (upsertGroup m k v) p =
      lookupGroup m p ++ (if p = k then [v] else []) := by
  induction m with
  | nil =>
    simp only [upsertGroup, lookupGroup]
    split_ifs with h1 h2 <;> simp_all [eq_comm]
  | cons hd rest ih =>
    obtain ⟨k', vs⟩ := hd
    by_cases h1 : k' = k
    · simp only [upsertGroup, if_pos h1, lookupGroup]
      by_cases h2 : k' = p
      · have hpk : p = k := (h2.symm.trans h1)
        simp [h2, hpk]
      · have hpk : ¬ p = k := fun e => h2 (h1.trans e.symm)
        simp [h2, hpk]
    · simp only [upsertGroup, if_neg h1, lookupGroup]
      by_cases h2 : k' = p
      · have hpk : ¬ p = k := fun e => h1 (h2.trans e)
        simp [h2, hpk]
      · simp [h2, ih]

theorem lookupGroup_groupFold (keys : List String) :
    ∀ (m : List (String × List String)) (p : String),
      lookupGroup
          (keys.foldl
            (fun m key =>
              match extractPartition key with
              | some q => upsertGroup m q key
              | none => m) m) p
        = lookupGroup m p ++ keys.filter (fun key => decide (extractPartition key = some p)) := by
  induction keys with
  | nil => intro m p; simp
  | cons key keys ih =>
    intro m p
    rw [List.foldl_cons]
    cases hx : extractPartition key with
    | none =>
      simp only [hx]
      rw [ih]
      have hf : (key :: keys).filter (fun key => decide (extractPartition key = some p)) =
          keys.filter (fun key => decide (extractPartition key = some p)) := by
        simp [List.filter_cons, hx]
      rw [hf]
    | some q =>
      simp only [hx]
      rw [ih, lookupGroup_upsertGroup]
      by_cases hpq : p = q
      · subst hpq
        have hf : (key :: keys).filter (fun key => decide (extractPartition key = some p)) =
            key :: keys.filter (fun key => decide (extractPartition key = some p)) := by
          simp [List.filter_cons, hx]
        rw [hf, if_pos rfl, List.append_assoc, List.singleton_append]
      · have hqp : (q = p) = False := eq_false (fun e => hpq e.symm)
        have hf : (key :: keys).filter (fun key => decide (extractPartition key = some p)) =
            keys.filter (fun key => decide (extractPartition key = some p)) := by
          simp [List.filter_cons, hx, hqp]
        rw [hf, if_neg hpq, List.append_nil]

theorem lookupGroup_groupFilesByPartition (keys : List String) (p : String) :
    lookupGroup (groupFilesByPartition keys) p
      = keys.filter (fun key => decide (extractPartition key = some p)) := by
  have h := lookupGroup_groupFold keys [] p
  simpa [groupFilesByPartition, lookupGroup] using h

theorem mem_keys_upsertGroup (m : List (String × List String)) (k v x : String)
    (h : x ∈ (upsertGroup m k v).map Prod.fst) : x ∈ m.map Prod.fst ∨ x = k := by
  induction m with
  | nil => simpa [upsertGroup] using h
  | cons hd rest ih =>
    obtain ⟨k', vs⟩ := hd
    by_cases h1 : k' = k
    · simp only [upsertGroup, if_pos h1, List.map_cons] at h
      exact Or.inl (by simpa using h)
    · simp only [upsertGroup, if_neg h1, List.map_cons, List.mem_cons] at h
      rcases h with h | h
      · exact Or.inl (by simp [h])
      · rcases ih h with h2 | h2
        · exact Or.inl (by simp [h2])
        · exact Or.inr h2

theorem nodup_keys_upsertGroup (m : List (String × List String)) (k v : String)
    (h : (m.map Prod.fst).Nodup) : ((upsertGroup m k v).map Prod.fst).Nodup := by
  induction m with
  | nil => simp [upsertGroup]
  | cons hd rest ih =>
    obtain ⟨k', vs⟩ := hd
    simp only [List.map_cons, List.nodup_cons] at h
    by_cases h1 : k' = k
    · simp only [upsertGroup, if_pos h1, List.map_cons, List.nodup_cons]
      exact h
    · simp only [upsertGroup, if_neg h1, List.map_cons, List.nodup_cons]
      refine ⟨?_, ih h.2⟩
      intro hmem
      rcases mem_keys_upsertGroup rest k v k' hmem with h2 | h2
      · exact h.1 h2
      · exact h1 h2

theorem nodup_keys_groupFold (keys : List String) :
    ∀ m : List (String × List String), (m.map Prod.fst).Nodup →
      ((keys.foldl
          (fun m key =>
            match extractPartition key with
            | some q => upsertGroup m q key
            | none => m) m).map Prod.fst).Nodup := by
  induction keys with
  | nil => intro m hm; simpa using hm
  | cons key keys ih =>
    intro m hm
    rw [List.foldl_cons]
    cases hx : extractPartition key with
    | none => simp only [hx]; exact ih m hm
    | some q => simp only [hx]; exact ih _ (nodup_keys_upsertGroup m q key hm)

theorem nodup_keys_groupFilesByPartition (keys : List String) :
    ((groupFilesByPartition keys).map Prod.fst).Nodup :=
  nodup_keys_groupFold keys [] (by simp)

theorem lookupGroup_of_mem (m : List (String × List String))
    (hnd : (m.map Prod.fst).Nodup) :
    ∀ g ∈ m, lookupGroup m g.1 = g.2 := by
  induction m with
  | nil => intro g hg; simp at hg
  | cons hd rest ih =>
    intro g hg
    simp only [List.map_cons, List.nodup_cons] at hnd
    rcases List.mem_cons.1 hg with h | h
    · subst h
      obtain ⟨k', vs⟩ := g
      simp [lookupGroup]
    · obtain ⟨k', vs⟩ := hd
      have hne : k' ≠ g.1 := by
        intro e
        have hgm : g.1 ∈ rest.map Prod.fst := List.mem_map_of_mem Prod.fst h
        rw [← e] at hgm
        exact hnd.1 hgm
      simp only [lookupGroup, if_neg hne]
      exact ih hnd.2 g h

/-- C8 counterexample.  A key in which `data/<segment>/` occurs away from position 0 is
grouped by the source (the pattern of transaction-log.ts line 39 is unanchored), yet it
does not match the anchored pattern of the specification: the claim that every grouped
key matches `^data/([^/]+)/` is false of the code. -/
theorem group_accepts_unanchored_key_cex :
    extractPartition "xdata/p=1/a.json" = some "p=1" ∧
    groupFilesByPartition ["xdata/p=1/a.json"] = [("p=1", ["xdata/p=1/a.json"])] ∧
    matchesAnchoredData "xdata/p=1/a.json" = false := by
  refine ⟨rfl, rfl, rfl⟩

/-- C8 amended.  groupFilesByPartition is total and, for every input list of keys: the
group stored under a partition p is exactly the input keys whose partition extracts to p
in input order (so keys whose partition does not extract are dropped, order within each
group is the input order, and membership in any group of the output implies extraction
succeeds); and a key whose partition extracts to p contains `data/` followed by the
nonempty slash-free segment p and a slash — at some position in the key, not necessarily
at its start. -/
theorem groupFilesByPartition_spec (keys : List String) (p k : String) :
    lookupGroup (groupFilesByPartition keys) p =
      keys.filter (fun key => decide (extractPartition key = some p)) ∧
    (∀ g ∈ groupFilesByPartition keys,
      g.2 = keys.filter (fun key => decide (extractPartition key = some g.1))) ∧
    (extractPartition k = some p →
      p.data ≠ [] ∧ (∀ c ∈ p.data, c ≠ '/') ∧
      ∃ pre post, k.data = pre ++ ('d' :: 'a' :: 't' :: 'a' :: '/' :: (p.data ++ '/' :: post))) := by
  refine ⟨lookupGroup_groupFilesByPartition keys p, ?_, ?_⟩
  · intro g hg
    rw [← lookupGroup_of_mem (groupFilesByPartition keys)
      (nodup_keys_groupFilesByPartition keys) g hg]
    exact lookupGroup_groupFilesByPartition keys g.1
  · intro hx
    unfold extractPartition at hx
    rcases Option.map_eq_some'.1 hx with ⟨seg, hscan, hmk⟩
    obtain ⟨h1, h2, pre, post, h3⟩ := scanPartition_decomp k.data seg hscan
    have hdata : p.data = seg := by rw [← hmk]
    rw [hdata]
    exact ⟨h1, h2, pre, post, h3⟩

/-- Stable insertion of one entry into a version-sorted list: the entry goes after every
entry whose version is less than or equal to its own, which is how JavaScript's stable
`Array.prototype.sort` with comparator `(a, b) => a.version - b.version` places it. -/
def insertByVersion (e : TransactionEntry) :
    List TransactionEntry → List TransactionEntry
  | [] => [e]
  | x :: xs => if x.version ≤ e.version then x :: insertByVersion e xs else e :: x :: xs

/-- readTransactionLog (transaction-log.ts lines 122-139): fetch every object under the
log prefix, parse it, and sort the entries by version ascending.  The log region of the
bucket is modelled by the list of parsed entries in listing order (objects whose fetch
returns nothing are skipped by the source before this point); the stable ascending sort
is realized by an insertion fold. -/
def readTransactionLog (logObjects : List TransactionEntry) : List TransactionEntry :=
  logObjects.foldl (fun acc t => insertByVersion t acc) []

/-- Insertion of a list of paths into a set, as the inner `for` loops of getCurrentState
(transaction-log.ts lines 156-167) perform it on a JavaScript `Set`. -/
def foldPathsInto (paths : List String) (s : Finset String) : Finset String :=
  paths.foldl (fun s p => insert p s) s

/-- First half of getCurrentState's replay loop (transaction-log.ts lines 154-160):
every `add.path` of every entry joins the set — the entry's operation is never
consulted. -/
def replayParquetFiles (txs : List TransactionEntry) : Finset String :=
  txs.foldl (fun s t => foldPathsInto ((t.add.getD []).map FileAction.path) s) ∅

/-- Second half of getCurrentState's replay loop (transaction-log.ts lines 162-167):
every `remove.path` of every entry joins the set — again whatever the operation. -/
def replayRemovedFiles (txs : List TransactionEntry) : Finset String :=
  txs.foldl (fun s t => foldPathsInto ((t.remove.getD []).map FileAction.path) s) ∅

/-- String prefix test over the character lists; models both JavaScript `startsWith` and
an R2 `list` call with a prefix, which returns exactly the keys extending it. -/
def strHasPre (pre s : String) : Bool := pre.data.isPrefixOf s.data

/-- getCurrentState (transaction-log.ts lines 145-186): replay the sorted log into the
set of live parquet paths and the set of removed paths, list the actual keys under
`data/`, and report as orphaned the removed paths that still exist there.  The bucket is
modelled by its parsed log objects plus its full key listing `bucketKeys`. -/
def getCurrentState (logObjects : List TransactionEntry) (bucketKeys : List String) :
    Finset String × Finset String :=
  let txs := readTransactionLog logObjects
  let parquetFiles := replayParquetFiles txs
  let removedFiles := replayRemovedFiles txs
  let actualJsonFiles := (bucketKeys.filter (fun kk => strHasPre "data/" kk)).toFinset
  (parquetFiles, removedFiles ∩ actualJsonFiles)

/-- DELETE /cleanup (worker.ts lines 325-352): compute the current state and delete
exactly the orphaned keys (when there are none the early return deletes nothing, which
coincides with deleting the empty set).  The result pairs the deleted keys with the keys
remaining in the bucket. -/
def cleanupRun (logObjects : List TransactionEntry) (bucketKeys : List String) :
    Finset String × List String :=
  let orphans := (getCurrentState logObjects bucketKeys).2
  (orphans, bucketKeys.filter (fun kk => decide (kk ∉ orphans)))

/-- Modelled from the spec: the gap report `{missingVersions: [ints]}` that section 7
requires readAll to produce — every version below the highest present one that has no
entry.  No code of the repository computes such a value. -/
def missingVersionsSpec (logObjects : List TransactionEntry) : List Nat :=
  let vs := logObjects.map TransactionEntry.version
  (List.range (vs.foldl Nat.max 0)).filter (fun v => decide (v ∉ vs))

theorem mem_insertByVersion (e x : TransactionEntry) (l : List TransactionEntry) :
    x ∈ insertByVersion e l ↔ x = e ∨ x ∈ l := by
  induction l with
  | nil => simp [insertByVersion]
  | cons y ys ih =>
    by_cases h : y.version ≤ e.version
    · simp only [insertByVersion, if_pos h, List.mem_cons, ih]
      tauto
    · simp only [insertByVersion, if_neg h, List.mem_cons]

theorem mem_readTransactionLog_fold (l : List TransactionEntry) :
    ∀ (acc : List TransactionEntry) (x : TransactionEntry),
      x ∈ l.foldl (fun acc t => insertByVersion t acc) acc ↔ x ∈ acc ∨ x ∈ l := by
  induction l with
  | nil => intro acc x; simp
  | cons t ts ih =>
    intro acc x
    rw [List.foldl_cons, ih, mem_insertByVersion]
    simp only [List.mem_cons]
    tauto

theorem mem_readTransactionLog (logObjects : List TransactionEntry) (x : TransactionEntry) :
    x ∈ readTransactionLog logObjects ↔ x ∈ logObjects := by
  rw [readTransactionLog, mem_readTransactionLog_fold]
  simp

theorem sorted_insertByVersion (e : TransactionEntry) (l : List TransactionEntry)
    (h : l.Pairwise (fun a b => a.version ≤ b.version)) :
    (insertByVersion e l).Pairwise (fun a b => a.version ≤ b.version) := by
  induction l with
  | nil => simp [insertByVersion]
  | cons y ys ih =>
    rcases List.pairwise_cons.1 h with ⟨hy, hys⟩
    by_cases hle : y.version ≤ e.version
    · rw [insertByVersion, if_pos hle]
      refine List.pairwise_cons.2 ⟨?_, ih hys⟩
      intro z hz
      rcases (mem_insertByVersion e z ys).1 hz with h1 | h1
      · exact h1 ▸ hle
      · exact hy z h1
    · rw [insertByVersion, if_neg hle]
      refine List.pairwise_cons.2 ⟨?_, h⟩
      intro z hz
      rcases List.mem_cons.1 hz with h1 | h1
      · exact h1 ▸ Nat.le_of_not_le hle
      · exact Nat.le_trans (Nat.le_of_not_le hle) (hy z h1)

theorem sorted_readTransactionLog (logObjects : List TransactionEntry) :
    (readTransactionLog logObjects).Pairwise (fun a b => a.version ≤ b.version) := by
  rw [readTransactionLog]
  have hgen : ∀ (acc : List TransactionEntry),
      acc.Pairwise (fun a b => a.version ≤ b.version) →
      (logObjects.foldl (fun acc t => insertByVersion t acc) acc).Pairwise
        (fun a b => a.version ≤ b.version) := by
    induction logObjects with
    | nil => intro acc hacc; simpa using hacc
    | cons t ts ih =>
      intro acc hacc
      rw [List.foldl_cons]
      exact ih _ (sorted_insertByVersion t acc hacc)
  exact hgen [] (by simp)

theorem mem_foldPathsInto (paths : List String) :
    ∀ (s : Finset String) (x : String),
      x ∈ foldPathsInto paths s ↔ x ∈ s ∨ x ∈ paths := by
  induction paths with
  | nil => intro s x; simp [foldPathsInto]
  | cons p ps ih =>
    intro s x
    rw [show foldPathsInto (p :: ps) s = foldPathsInto ps (insert p s) from rfl, ih]
    simp only [Finset.mem_insert, List.mem_cons]
    tauto

theorem mem_replayFold (get : TransactionEntry → Option (List FileAction))
    (txs : List TransactionEntry) :
    ∀ (s : Finset String) (x : String),
      x ∈ txs.foldl (fun s t => foldPathsInto (((get t).getD []).map FileAction.path) s) s ↔
        x ∈ s ∨ ∃ t ∈ txs, ∃ a ∈ (get t).getD [], a.path = x := by
  induction txs with
  | nil => intro s x; simp
  | cons t ts ih =>
    intro s x
    rw [List.foldl_cons, ih, mem_foldPathsInto]
    simp only [List.mem_map]
    constructor
    · rintro ((hs | ⟨a, ha, hpa⟩) | ⟨t', ht', a, ha, hpa⟩)
      · exact Or.inl hs
      · exact Or.inr ⟨t, List.mem_cons_self t ts, a, ha, hpa⟩
      · exact Or.inr ⟨t', List.mem_cons_of_mem t ht', a, ha, hpa⟩
    · rintro (hs | ⟨t', ht', a, ha, hpa⟩)
      · exact Or.inl (Or.inl hs)
      · rcases List.mem_cons.1 ht' with h1 | h1
        · subst h1; exact Or.inl (Or.inr ⟨a, ha, hpa⟩)
        · exact Or.inr ⟨t', h1, a, ha, hpa⟩

theorem mem_replayParquetFiles (txs : List TransactionEntry) (x : String) :
    x ∈ replayParquetFiles txs ↔ ∃ t ∈ txs, ∃ a ∈ t.add.getD [], a.path = x := by
  have h := mem_replayFold (fun t => t.add) txs ∅ x
  simpa [replayParquetFiles] using h

theorem mem_replayRemovedFiles (txs : List TransactionEntry) (x : String) :
    x ∈ replayRemovedFiles txs ↔ ∃ t ∈ txs, ∃ a ∈ t.remove.getD [], a.path = x := by
  have h := mem_replayFold (fun t => t.remove) txs ∅ x
  simpa [replayRemovedFiles] using h

theorem mem_state_parquet (logObjects : List TransactionEntry) (bucketKeys : List String)
    (x : String) :
    x ∈ (getCurrentState logObjects bucketKeys).1 ↔
      ∃ t ∈ logObjects, ∃ a ∈ t.add.getD [], a.path = x := by
  show x ∈ replayParquetFiles (readTransactionLog logObjects) ↔ _
  rw [mem_replayParquetFiles]
  constructor
  · rintro ⟨t, ht, a, ha, hpa⟩
    exact ⟨t, (mem_readTransactionLog logObjects t).1 ht, a, ha, hpa⟩
  · rintro ⟨t, ht, a, ha, hpa⟩
    exact ⟨t, (mem_readTransactionLog logObjects t).2 ht, a, ha, hpa⟩

theorem mem_state_orphans (logObjects : List TransactionEntry) (bucketKeys : List String)
    (x : String) :
    x ∈ (getCurrentState logObjects bucketKeys).2 ↔
      (∃ t ∈ logObjects, ∃ a ∈ t.remove.getD [], a.path = x) ∧
        (x ∈ bucketKeys ∧ strHasPre "data/" x = true) := by
  show x ∈ replayRemovedFiles (readTransactionLog logObjects) ∩
      ((bucketKeys.filter (fun kk => strHasPre "data/" kk)).toFinset) ↔ _
  rw [Finset.mem_inter, mem_replayRemovedFiles, List.mem_toFinset, List.mem_filter]
  constructor
  · rintro ⟨⟨t, ht, a, ha, hpa⟩, hb⟩
    exact ⟨⟨t, (mem_readTransactionLog logObjects t).1 ht, a, ha, hpa⟩, hb⟩
  · rintro ⟨⟨t, ht, a, ha, hpa⟩, hb⟩
    exact ⟨⟨t, (mem_readTransactionLog logObjects t).2 ht, a, ha, hpa⟩, hb⟩

/-- C5 counterexample input: a transaction entry whose operation is `cleanup` yet which
carries an add action. -/
def cleanupOpEntry : TransactionEntry :=
  { version := 0, timestamp := "t", operation := Operation.cleanup,
    add := some [{ path := "x" }] }

/-- C5 counterexample.  A cleanup-operation entry with an add action contributes its
path to the live-artifact set computed by getCurrentState: the replay loop never
consults the operation field, so entries with operation `schema_change` or `cleanup`
are not ignored by the liveness computation, contradicting the claim. -/
theorem replay_includes_cleanup_adds_cex :
    cleanupOpEntry.operation = Operation.cleanup ∧
    "x" ∈ (getCurrentState [cleanupOpEntry] []).1 := by
  refine ⟨rfl, ?_⟩
  rw [mem_state_parquet]
  exact ⟨cleanupOpEntry, by simp, { path := "x" }, by simp [cleanupOpEntry], rfl⟩

/-- C5 amended.  getCurrentState folds the log entries (in version order, though the
resulting sets are order-independent): the live set `parquetFiles` is exactly the paths
of the add actions of all entries and the removed set is exactly the paths of the remove
actions of all entries, in both cases whatever each entry's operation is — entries with
operation `schema_change` or `cleanup` participate exactly like `compact` entries, their
add and remove actions included; nothing is skipped by operation kind. -/
theorem getCurrentState_replay_spec (logObjects : List TransactionEntry)
    (bucketKeys : List String) (x : String) :
    (x ∈ (getCurrentState logObjects bucketKeys).1 ↔
      ∃ t ∈ logObjects, ∃ a ∈ t.add.getD [], a.path = x) ∧
    (x ∈ replayRemovedFiles (readTransactionLog logObjects) ↔
      ∃ t ∈ logObjects, ∃ a ∈ t.remove.getD [], a.path = x) := by
  refine ⟨mem_state_parquet logObjects bucketKeys x, ?_⟩
  rw [mem_replayRemovedFiles]
  constructor
  · rintro ⟨t, ht, a, ha, hpa⟩
    exact ⟨t, (mem_readTransactionLog logObjects t).1 ht, a, ha, hpa⟩
  · rintro ⟨t, ht, a, ha, hpa⟩
    exact ⟨t, (mem_readTransactionLog logObjects t).2 ht, a, ha, hpa⟩

/-- Log entry at version 0 of the C7 evaluation. -/
def entryV0 : TransactionEntry :=
  { version := 0, timestamp := "t0", operation := Operation.compact }

/-- Log entry at version 2 of the C7 evaluation: no entry carries version 1. -/
def entryV2 : TransactionEntry :=
  { version := 2, timestamp := "t2", operation := Operation.compact }

/-- C7 evaluation.  On a log whose stored objects carry versions 2 and 0 (version 1
missing), readTransactionLog does not crash and returns the parsed entries sorted by
version ascending — and that list is its entire result: the specified gap report, which
would be missingVersions = [1] here, is computed nowhere in the repository.  The
spec-modelled report is evaluated alongside to exhibit what the source omits. -/
theorem readTransactionLog_gap_eval :
    readTransactionLog [entryV2, entryV0] = [entryV0, entryV2] ∧
    missingVersionsSpec [entryV2, entryV0] = [1] := by
  exact ⟨rfl, rfl⟩

/-- C10.  The live-artifact set of getCurrentState is monotone in the log: extending the
stored log objects by one entry yields the old live set united with the paths of the new
entry's add actions — remove actions never shrink it. -/
theorem getCurrentState_live_monotone (logObjects : List TransactionEntry)
    (e : TransactionEntry) (bucketKeys : List String) :
    (getCurrentState (logObjects ++ [e]) bucketKeys).1 =
      (getCurrentState logObjects bucketKeys).1 ∪
        ((e.add.getD []).map FileAction.path).toFinset := by
  ext x
  rw [Finset.mem_union, mem_state_parquet, mem_state_parquet, List.mem_toFinset,
    List.mem_map]
  constructor
  · rintro ⟨t, ht, a, ha, hpa⟩
    rcases List.mem_append.1 ht with h1 | h1
    · exact Or.inl ⟨t, h1, a, ha, hpa⟩
    · rcases List.mem_singleton.1 h1 with rfl
      exact Or.inr ⟨a, ha, hpa⟩
  · rintro (⟨t, ht, a, ha, hpa⟩ | ⟨a, ha, hpa⟩)
    · exact ⟨t, List.mem_append.2 (Or.inl ht), a, ha, hpa⟩
    · exact ⟨e, List.mem_append.2 (Or.inr (List.mem_singleton.2 rfl)), a, ha, hpa⟩

theorem strHasPre_disjoint (p1 p2 x : String) (hlen : p1.data.length ≤ p2.data.length)
    (hnot : p1.data.isPrefixOf p2.data = false) (h : strHasPre p1 x = true) :
    strHasPre p2 x = false := by
  by_contra hcon
  have h2 : strHasPre p2 x = true := by
    cases hval : strHasPre p2 x with
    | true => rfl
    | false => exact absurd hval hcon
  have hp1 : p1.data <+: x.data := List.isPrefixOf_iff_prefix.1 h
  have hp2 : p2.data <+: x.data := List.isPrefixOf_iff_prefix.1 h2
  have : p1.data <+: p2.data := List.prefix_of_prefix_length_le hp1 hp2 hlen
  rw [← List.isPrefixOf_iff_prefix, hnot] at this
  exact Bool.false_ne_true this

theorem filter_of_filter_implied (p q : String → Bool) (l : List String)
    (h : ∀ x ∈ l, p x = true → q x = true) :
    (l.filter q).filter p = l.filter p := by
  induction l with
  | nil => rfl
  | cons x xs ih =>
    have hxs : ∀ y ∈ xs, p y = true → q y = true :=
      fun y hy => h y (List.mem_cons_of_mem x hy)
    cases hq : q x with
    | true =>
      rw [List.filter_cons_of_pos hq]
      cases hp : p x with
      | true =>
        rw [List.filter_cons_of_pos hp, List.filter_cons_of_pos hp, ih hxs]
      | false =>
        rw [List.filter_cons_of_neg (by simp [hp]), List.filter_cons_of_neg (by simp [hp]),
          ih hxs]
    | false =>
      have hp : p x = false := by
        cases hpv : p x with
        | true => exact absurd (h x (List.mem_cons_self x xs) hpv) (by simp [hq])
        | false => rfl
      rw [List.filter_cons_of_neg (by simp [hq]), List.filter_cons_of_neg (by simp [hp]),
        ih hxs]

/-- C9.  DELETE /cleanup deletes exactly the keys that occur as the path of some remove
action of the transaction log and still exist in the bucket under the `data/` prefix;
every deleted key consequently lies outside the `parquet/` and `_lakeside_log/`
namespaces, and the keys of those two namespaces that remain in the bucket after the
cleanup are exactly the ones that were there before — the transaction log and the
published artifacts are untouched. -/
theorem cleanup_frame_spec (logObjects : List TransactionEntry) (bucketKeys : List String)
    (x : String) :
    (x ∈ (cleanupRun logObjects bucketKeys).1 ↔
      (∃ t ∈ logObjects, ∃ a ∈ t.remove.getD [], a.path = x) ∧
        (x ∈ bucketKeys ∧ strHasPre "data/" x = true)) ∧
    (x ∈ (cleanupRun logObjects bucketKeys).1 →
      strHasPre "parquet/" x = false ∧ strHasPre "_lakeside_log/" x = false) ∧
    ((cleanupRun logObjects bucketKeys).2.filter (fun kk => strHasPre "_lakeside_log/" kk)
      = bucketKeys.filter (fun kk => strHasPre "_lakeside_log/" kk)) ∧
    ((cleanupRun logObjects bucketKeys).2.filter (fun kk => strHasPre "parquet/" kk)
      = bucketKeys.filter (fun kk => strHasPre "parquet/" kk)) := by
  have hdel : ∀ y, y ∈ (cleanupRun logObjects bucketKeys).1 → strHasPre "data/" y = true :=
    fun y hy => ((mem_state_orphans logObjects bucketKeys y).1 hy).2.2
  refine ⟨mem_state_orphans logObjects bucketKeys x, ?_, ?_, ?_⟩
  · intro hx
    have hd := hdel x hx
    constructor
    · exact strHasPre_disjoint "data/" "parquet/" x (by decide) (by decide) hd
    · exact strHasPre_disjoint "data/" "_lakeside_log/" x (by decide) (by decide) hd
  · refine filter_of_filter_implied _ _ bucketKeys ?_
    intro y _ hy
    have hnp : strHasPre "data/" y = false := by
      cases hval : strHasPre "data/" y with
      | false => rfl
      | true =>
        have := strHasPre_disjoint "data/" "_lakeside_log/" y (by decide) (by decide) hval
        rw [hy] at this
        exact absurd this (by simp)
    simp only [decide_eq_true_eq]
    intro hmem
    exact absurd (hdel y hmem) (by simp [hnp])
  · refine filter_of_filter_implied _ _ bucketKeys ?_
    intro y _ hy
    have hnp : strHasPre "data/" y = false := by
      cases hval : strHasPre "data/" y with
      | false => rfl
      | true =>
        have := strHasPre_disjoint "data/" "parquet/" y (by decide) (by decide) hval
        rw [hy] at this
        exact absurd this (by simp)
    simp only [decide_eq_true_eq]
    intro hmem
    exact absurd (hdel y hmem) (by simp [hnp])

/-- String suffix test over the character lists (JavaScript `endsWith`, used by
parseFileContent to detect `.ndjson` staging objects). -/
def strHasSuf (suf s : String) : Bool := suf.data.isSuffixOf s.data

/-- JavaScript whitespace as `trim` strips it, restricted to the ASCII range that staging
bodies use; `line.trim()` is truthy exactly when the line has a character outside this
set. -/
def isJsSpace (c : Char) : Bool :=
  decide (c = ' ' ∨ c = '\t' ∨ c = '\n' ∨ c = '\r' ∨ c = '\x0b' ∨ c = '\x0c')

/-- Split on newline characters, as JavaScript's `content.split('\n')` does (an empty
content yields one empty line, a trailing newline yields a trailing empty line). -/
def splitNl : List Char → List (List Char)
  | [] => [[]]
  | c :: rest =>
    if c = '\n' then [] :: splitNl rest
    else
      match splitNl rest with
      | line :: lines => (c :: line) :: lines
      | [] => [[c]]

/-- parseFileContent (worker.ts lines 87-96).  `jsonParse` abstracts the external
`JSON.parse`: it says whether a string parses; a parsed record is carried as its source
string, which is all the downstream code observes (the encoder is opaque and rowCount
only counts records).  For an `.ndjson` name the non-blank lines must each parse; any
other name must parse as one document.  `none` models the exception path. -/
def parseFileContent (jsonParse : String → Bool) (content filename : String) :
    Option (List String) :=
  if strHasSuf ".ndjson" filename then
    let lines := (splitNl content.data).map (fun cs => String.mk cs)
    let kept := lines.filter (fun line => line.data.any (fun c => ! isJsSpace c))
    if kept.all jsonParse then some kept else none
  else
    if jsonParse content then some [content] else none

/-- Sequence a fallible map over a list, as `Promise.all` over throwing async bodies
behaves once settled: the whole collection fails when any element fails. -/
def collectSome {α β : Type} (f : α → Option β) : List α → Option (List β)
  | [] => some []
  | a :: l =>
    match f a, collectSome f l with
    | some b, some bs => some (b :: bs)
    | _, _ => none

/-- Result record of processPartition (worker.ts lines 106-112). -/
structure PartitionResult where
  addedFiles : List FileAction
  removedFiles : List FileAction
  rowCount : Nat
  parquetKey : String
deriving DecidableEq, Repr

/-- processPartition (worker.ts lines 101-160): fetch every staging object of the group
(failing when one is absent), parse every body (failing when one does not parse), hand
the records to the external encoder — abstracted by `encode`, which returns the byte
length of the generated buffer — and produce one add action for the parquet key plus one
remove action per source key.  `ts` is the path-safe timestamp string the source derives
from the wall clock. -/
def processPartition (jsonParse : String → Bool) (encode : List String → Nat)
    (bucketGet : String → Option String) (ts partitionKey : String)
    (partitionFiles : List String) : Option PartitionResult :=
  match collectSome (fun key => (bucketGet key).map (fun text => (key, text))) partitionFiles with
  | none => none
  | some fileResults =>
    match collectSome (fun kt => parseFileContent jsonParse kt.2 kt.1) fileResults with
    | none => none
    | some recordLists =>
      let allRecords := recordLists.flatten
      let parquetKey := "parquet/" ++ partitionKey ++ "/part-" ++ ts ++ ".parquet"
      some { addedFiles := [{ path := parquetKey, size := some (encode allRecords),
                              rowCount := some allRecords.length,
                              partition := some partitionKey }],
             removedFiles := partitionFiles.map (fun p => { path := p }),
             rowCount := allRecords.length,
             parquetKey := parquetKey }

/-- Observable outcome of one POST / compaction run: the HTTP status, the add and remove
lists of the transaction entry appended to the log (none when nothing was appended), the
keys deleted in the reclaim step, the staging keys fetched during per-partition encode,
and whether the coordinator lock was released by the handler. -/
structure RunOutcome where
  status : Nat
  committed : Option (List FileAction × List FileAction)
  deletedKeys : List String
  readKeys : List String
  releasedLock : Bool
deriving Repr

/-- POST / orchestrator flow (worker.ts lines 163-289): schema fetch (a failure answers
400 via ErrorsToResponse before anything else), snapshot listing of `data/` giving
`fileKeys`, early return when it is empty, lock acquisition against the coordinator
(modelled by `coordinatorBusy`; 409 when held), partition grouping with a 400 release
path when no group forms, parallel per-partition processing with a 500 release path when
any partition fails, then the transaction append, the parquet publishes, the reclaim
deletion of every snapshot key, and the release. -/
def compactPost (jsonParse : String → Bool) (encode : List String → Nat)
    (bucketGet : String → Option String) (schemaOk : Bool) (coordinatorBusy : Bool)
    (fileKeys : List String) (ts : String) : RunOutcome :=
  if ¬ schemaOk then
    { status := 400, committed := none, deletedKeys := [], readKeys := [],
      releasedLock := false }
  else if fileKeys.isEmpty then
    { status := 200, committed := none, deletedKeys := [], readKeys := [],
      releasedLock := false }
  else if coordinatorBusy then
    { status := 409, committed := none, deletedKeys := [], readKeys := [],
      releasedLock := false }
  else if (groupFilesByPartition fileKeys).isEmpty then
    { status := 400, committed := none, deletedKeys := [], readKeys := [],
      releasedLock := true }
  else if ((groupFilesByPartition fileKeys).map
      (fun g => processPartition jsonParse encode bucketGet ts g.1 g.2)).any
      (fun r => r.isNone) then
    { status := 500, committed := none, deletedKeys := [],
      readKeys := (groupFilesByPartition fileKeys).flatMap Prod.snd, releasedLock := true }
  else
    { status := 200,
      committed := some
        ((((groupFilesByPartition fileKeys).map
            (fun g => processPartition jsonParse encode bucketGet ts g.1 g.2)).filterMap
              id).flatMap (fun r => r.addedFiles),
         (((groupFilesByPartition fileKeys).map
            (fun g => processPartition jsonParse encode bucketGet ts g.1 g.2)).filterMap
              id).flatMap (fun r => r.removedFiles)),
      deletedKeys := fileKeys,
      readKeys := (groupFilesByPartition fileKeys).flatMap Prod.snd,
      releasedLock := true }

theorem collectSome_eq_none_iff {α β : Type} (f : α → Option β) (l : List α) :
    collectSome f l = none ↔ ∃ a ∈ l, f a = none := by
  induction l with
  | nil => simp [collectSome]
  | cons a l ih =>
    rw [collectSome]
    cases hfa : f a with
    | none => simp [hfa]
    | some b =>
      cases hcl : collectSome f l with
      | none =>
        simp only [hcl]
        constructor
        · intro _
          rcases ih.1 hcl with ⟨x, hx, hfx⟩
          exact ⟨x, List.mem_cons_of_mem a hx, hfx⟩
        · intro _; trivial
      | some bs =>
        simp only [hcl]
        constructor
        · intro h; exact absurd h (by simp)
        · rintro ⟨x, hx, hfx⟩
          rcases List.mem_cons.1 hx with h1 | h1
          · subst h1; rw [hfa] at hfx; exact absurd hfx (by simp)
          · exact absurd (ih.2 ⟨x, h1, hfx⟩) (by simp [hcl])

theorem collectSome_mem {α β : Type} (f : α → Option β) (l : List α) (bs : List β)
    (hl : collectSome f l = some bs) (a : α) (ha : a ∈ l) :
    ∃ b, f a = some b ∧ b ∈ bs := by
  induction l generalizing bs with
  | nil => simp at ha
  | cons x xs ih =>
    rw [collectSome] at hl
    cases hfx : f x with
    | none => rw [hfx] at hl; exact absurd hl (by simp)
    | some b =>
      rw [hfx] at hl
      cases hcl : collectSome f xs with
      | none => rw [hcl] at hl; exact absurd hl (by simp)
      | some bs' =>
        rw [hcl] at hl
        have hbs : b :: bs' = bs := by injection hl
        rcases List.mem_cons.1 ha with h1 | h1
        · subst h1
          exact ⟨b, hfx, by rw [← hbs]; exact List.mem_cons_self b bs'⟩
        · rcases ih bs' hcl h1 with ⟨b', hb', hmem⟩
          exact ⟨b', hb', by rw [← hbs]; exact List.mem_cons_of_mem b hmem⟩

theorem lookupGroup_ne_nil (m : List (String × List String)) (p : String)
    (h : lookupGroup m p ≠ []) : (p, lookupGroup m p) ∈ m := by
  induction m with
  | nil => exact absurd rfl h
  | cons hd rest ih =>
    obtain ⟨k, vs⟩ := hd
    by_cases hk : k = p
    · subst hk
      simp only [lookupGroup, if_pos rfl] at h ⊢
      exact List.mem_cons_self _ _
    · simp only [lookupGroup, if_neg hk] at h ⊢
      exact List.mem_cons_of_mem _ (ih h)

theorem mem_group_extract (keys : List String) (g : String × List String)
    (hg : g ∈ groupFilesByPartition keys) (k : String) (hk : k ∈ g.2) :
    extractPartition k = some g.1 ∧ k ∈ keys := by
  have h2 : g.2 = lookupGroup (groupFilesByPartition keys) g.1 :=
    (lookupGroup_of_mem (groupFilesByPartition keys)
      (nodup_keys_groupFilesByPartition keys) g hg).symm
  rw [h2, lookupGroup_groupFilesByPartition] at hk
  rcases List.mem_filter.1 hk with ⟨hmem, hdec⟩
  exact ⟨of_decide_eq_true hdec, hmem⟩

theorem processPartition_none_of_bad (jsonParse : String → Bool) (encode : List String → Nat)
    (bucketGet : String → Option String) (ts partitionKey k : String)
    (partitionFiles : List String) (hk : k ∈ partitionFiles)
    (hbad : bucketGet k = none ∨
      (bucketGet k = some "" ∧ strHasSuf ".ndjson" k = false ∧ jsonParse "" = false)) :
    processPartition jsonParse encode bucketGet ts partitionKey partitionFiles = none := by
  cases hfR : collectSome (fun key => (bucketGet key).map fun text => (key, text))
      partitionFiles with
  | none => simp [processPartition, hfR]
  | some fileResults =>
    rcases hbad with habs | ⟨hempty, hsuf, hparse⟩
    · exfalso
      rcases collectSome_mem _ partitionFiles fileResults hfR k hk with ⟨b, hb, _⟩
      rw [habs] at hb
      exact absurd hb (by simp)
    · rcases collectSome_mem _ partitionFiles fileResults hfR k hk with ⟨b, hb, hbmem⟩
      rw [hempty] at hb
      have hbval : b = (k, "") := by
        injection hb with hb'
        exact hb'.symm
      subst hbval
      have hparsefail : parseFileContent jsonParse "" k = none := by
        rw [parseFileContent, hsuf]
        simp [hparse]
      have hsnd : collectSome (fun kt => parseFileContent jsonParse kt.2 kt.1)
          fileResults = none :=
        (collectSome_eq_none_iff _ _).2 ⟨(k, ""), hbmem, hparsefail⟩
      simp [processPartition, hfR, hsnd]

theorem processPartition_some_removed (jsonParse : String → Bool)
    (encode : List String → Nat) (bucketGet : String → Option String)
    (ts partitionKey : String) (partitionFiles : List String) (r : PartitionResult)
    (h : processPartition jsonParse encode bucketGet ts partitionKey partitionFiles
      = some r) :
    r.removedFiles = partitionFiles.map (fun p => ({ path := p } : FileAction)) := by
  cases h1 : collectSome (fun key => (bucketGet key).map fun text => (key, text))
      partitionFiles with
  | none =>
    simp only [processPartition, h1] at h
    exact absurd h (by simp)
  | some fileResults =>
    cases h2 : collectSome (fun kt => parseFileContent jsonParse kt.2 kt.1)
        fileResults with
    | none =>
      simp only [processPartition, h1, h2] at h
      exact absurd h (by simp)
    | some recordLists =>
      simp only [processPartition, h1, h2] at h
      injection h with h3
      rw [← h3]

/-- C6 counterexample.  A staging object with the `.ndjson` extension and an empty body
does not abort the run: the blank-line filter leaves zero records, every partition
succeeds, and the orchestrator commits a transaction entry (with rowCount 0), deletes
the staging key and answers 200 — where the claim demands a PartitionReadFailed abort
with status 500 and an untouched log whenever a fetched object has an empty body. -/
theorem empty_ndjson_not_aborted_cex :
    (fun key => if key = "data/p=1/a.ndjson" then some "" else none) "data/p=1/a.ndjson"
      = some "" ∧
    compactPost (fun _ => false) (fun rs => rs.length)
        (fun key => if key = "data/p=1/a.ndjson" then some "" else none) true false
        ["data/p=1/a.ndjson"] "T" =
      { status := 200,
        committed := some
          ([{ path := "parquet/p=1/part-T.parquet", size := some 0, rowCount := some 0,
              partition := some "p=1" }],
           [{ path := "data/p=1/a.ndjson" }]),
        deletedKeys := ["data/p=1/a.ndjson"],
        readKeys := ["data/p=1/a.ndjson"],
        releasedLock := true } :=
  ⟨rfl, rfl⟩

/-- C6 amended.  If some staging key of the snapshot belongs to a partition group and
its fetch returns an absent object — or a present object with an empty body, for keys
without the `.ndjson` extension, where the empty string fails to parse — then the run
answers 500, appends nothing to the transaction log, deletes nothing, and releases the
coordinator lock.  An empty `.ndjson` body does not abort the run (see the
counterexample). -/
theorem partition_read_failure_aborts (jsonParse : String → Bool)
    (encode : List String → Nat) (bucketGet : String → Option String)
    (fileKeys : List String) (ts k p : String)
    (hk : k ∈ fileKeys) (hp : extractPartition k = some p)
    (hbad : bucketGet k = none ∨
      (bucketGet k = some "" ∧ strHasSuf ".ndjson" k = false ∧ jsonParse "" = false)) :
    compactPost jsonParse encode bucketGet true false fileKeys ts =
      { status := 500, committed := none, deletedKeys := [],
        readKeys := (groupFilesByPartition fileKeys).flatMap Prod.snd,
        releasedLock := true } := by
  have hkl : k ∈ lookupGroup (groupFilesByPartition fileKeys) p := by
    rw [lookupGroup_groupFilesByPartition]
    exact List.mem_filter.2 ⟨hk, decide_eq_true hp⟩
  have hgmem : (p, lookupGroup (groupFilesByPartition fileKeys) p) ∈
      groupFilesByPartition fileKeys := by
    refine lookupGroup_ne_nil _ p ?_
    intro h0
    rw [h0] at hkl
    simp at hkl
  have hpm_ne : (groupFilesByPartition fileKeys).isEmpty = false := by
    cases hpm : groupFilesByPartition fileKeys with
    | nil => rw [hpm] at hgmem; simp at hgmem
    | cons a l => rfl
  have hfk_ne : fileKeys.isEmpty = false := by
    cases fileKeys with
    | nil => simp at hk
    | cons a l => rfl
  have hproc : processPartition jsonParse encode bucketGet ts p
      (lookupGroup (groupFilesByPartition fileKeys) p) = none :=
    processPartition_none_of_bad jsonParse encode bucketGet ts p k _ hkl hbad
  have hany : ((groupFilesByPartition fileKeys).map
      (fun g => processPartition jsonParse encode bucketGet ts g.1 g.2)).any
      (fun r => r.isNone) = true := by
    rw [List.any_eq_true]
    refine ⟨processPartition jsonParse encode bucketGet ts p
      (lookupGroup (groupFilesByPartition fileKeys) p), ?_, ?_⟩
    · exact List.mem_map_of_mem _ hgmem
    · rw [hproc]; rfl
  rw [compactPost, if_neg (by simp), if_neg (by simp [hfk_ne]), if_neg (by simp),
    if_neg (by simp [hpm_ne]), if_pos hany]

/-- C6 witness: a snapshot of one staging key whose fetch is absent makes the run answer
500 with nothing committed, nothing deleted and the lock released. -/
theorem partition_read_failure_aborts_witness :
    compactPost (fun _ => true) (fun rs => rs.length) (fun _ => none) true false
        ["data/p=1/a.json"] "T" =
      { status := 500, committed := none, deletedKeys := [],
        readKeys := (groupFilesByPartition ["data/p=1/a.json"]).flatMap Prod.snd,
        releasedLock := true } :=
  partition_read_failure_aborts (fun _ => true) (fun rs => rs.length) (fun _ => none)
    ["data/p=1/a.json"] "T" "data/p=1/a.json" "p=1"
    (List.mem_singleton.2 rfl) rfl (Or.inl rfl)

/-- C4 counterexample.  The snapshot lists `data/stray.json`, a key under the staging
prefix that the grouper drops (no partition directory, so the pattern finds no match).
The successful run still deletes it in the reclaim step — the source deletes every key
of `fileKeys`, not only the grouped ones — and the committed entry's remove list holds
only `data/p=1/a.json`: a key the orchestrator deletes is absent from the remove list,
so the claim is false. -/
theorem reclaim_deletes_dropped_key_cex :
    extractPartition "data/stray.json" = none ∧
    compactPost (fun _ => true) (fun rs => rs.length) (fun _ => some "r") true false
        ["data/p=1/a.json", "data/stray.json"] "T" =
      { status := 200,
        committed := some
          ([{ path := "parquet/p=1/part-T.parquet", size := some 1, rowCount := some 1,
              partition := some "p=1" }],
           [{ path := "data/p=1/a.json" }]),
        deletedKeys := ["data/p=1/a.json", "data/stray.json"],
        readKeys := ["data/p=1/a.json"],
        releasedLock := true } :=
  ⟨rfl, rfl⟩

/-- C4 amended.  A snapshot key dropped by the partition grouper is never fetched during
per-partition encode (it is in no group, hence not read and not encoded); but on a run
that commits, every snapshot key — the dropped ones included — is deleted in the reclaim
step, while the committed entry's remove list only ever holds grouped keys, so a dropped
key is deleted without appearing in any remove action. -/
theorem dropped_key_not_read_but_deleted (jsonParse : String → Bool)
    (encode : List String → Nat) (bucketGet : String → Option String)
    (fileKeys : List String) (ts k : String)
    (hk : k ∈ fileKeys) (hdrop : extractPartition k = none) :
    k ∉ (compactPost jsonParse encode bucketGet true false fileKeys ts).readKeys ∧
    (∀ adds removes,
      (compactPost jsonParse encode bucketGet true false fileKeys ts).committed =
        some (adds, removes) →
      k ∈ (compactPost jsonParse encode bucketGet true false fileKeys ts).deletedKeys ∧
      ∀ a ∈ removes, a.path ≠ k) := by
  have hnotread : k ∉ (groupFilesByPartition fileKeys).flatMap Prod.snd := by
    intro hmem
    rcases List.mem_flatMap.1 hmem with ⟨g, hg, hkg⟩
    have hx := (mem_group_extract fileKeys g hg k hkg).1
    rw [hdrop] at hx
    exact absurd hx (by simp)
  constructor
  · rw [compactPost]
    split_ifs <;> first | exact List.not_mem_nil k | exact hnotread
  · intro adds removes hcom
    have hfk_ne : fileKeys.isEmpty = false := by
      cases fileKeys with
      | nil => simp at hk
      | cons a l => rfl
    by_cases hpm : (groupFilesByPartition fileKeys).isEmpty = true
    · rw [compactPost, if_neg (by simp), if_neg (by simp [hfk_ne]), if_neg (by simp),
        if_pos hpm] at hcom
      exact absurd hcom (by simp)
    by_cases hany : ((groupFilesByPartition fileKeys).map
        (fun g => processPartition jsonParse encode bucketGet ts g.1 g.2)).any
        (fun r => r.isNone) = true
    · rw [compactPost, if_neg (by simp), if_neg (by simp [hfk_ne]), if_neg (by simp),
        if_neg hpm, if_pos hany] at hcom
      exact absurd hcom (by simp)
    rw [compactPost, if_neg (by simp), if_neg (by simp [hfk_ne]), if_neg (by simp),
      if_neg hpm, if_neg hany] at hcom ⊢
    refine ⟨hk, ?_⟩
    have hrem : removes = (((groupFilesByPartition fileKeys).map
        (fun g => processPartition jsonParse encode bucketGet ts g.1 g.2)).filterMap
          id).flatMap (fun r => r.removedFiles) := by
      have hpair := Option.some.inj hcom
      exact (congrArg Prod.snd hpair).symm
    intro a hmem heq
    rw [hrem] at hmem
    rcases List.mem_flatMap.1 hmem with ⟨r, hr, har⟩
    rcases List.mem_filterMap.1 hr with ⟨o, ho, hid⟩
    rcases List.mem_map.1 ho with ⟨g, hg, hgo⟩
    have hor : processPartition jsonParse encode bucketGet ts g.1 g.2 = some r := by
      rw [hgo]; exact hid
    have hshape := processPartition_some_removed jsonParse encode bucketGet ts g.1 g.2 r hor
    rw [hshape] at har
    rcases List.mem_map.1 har with ⟨pth, hpmem, hpa⟩
    have hap : a.path = pth := by rw [← hpa]
    have hkg : k ∈ g.2 := by
      rw [heq.symm.trans hap]
      exact hpmem
    have hx := (mem_group_extract fileKeys g hg k hkg).1
    rw [hdrop] at hx
    exact absurd hx (by simp)

/-- C4 witness: with the counterexample's snapshot, the dropped key `data/stray.json` is
not read by the run, yet on the committed outcome it is among the deleted keys and in no
remove action. -/
theorem dropped_key_not_read_but_deleted_witness :
    "data/stray.json" ∉ (compactPost (fun _ => true) (fun rs => rs.length)
        (fun _ => some "r") true false ["data/p=1/a.json", "data/stray.json"] "T").readKeys ∧
    (∀ adds removes,
      (compactPost (fun _ => true) (fun rs => rs.length) (fun _ => some "r") true false
          ["data/p=1/a.json", "data/stray.json"] "T").committed = some (adds, removes) →
      "data/stray.json" ∈ (compactPost (fun _ => true) (fun rs => rs.length)
          (fun _ => some "r") true false ["data/p=1/a.json", "data/stray.json"] "T").deletedKeys ∧
      ∀ a ∈ removes, a.path ≠ "data/stray.json") :=
  dropped_key_not_read_but_deleted (fun _ => true) (fun rs => rs.length) (fun _ => some "r")
    ["data/p=1/a.json", "data/stray.json"] "T" "data/stray.json" (by simp) rfl
